import Mathlib

/-!
Shallow embedding of the resume extraction pipeline
(src/backend/ml/extract_resume.py) and verification of its specification.

Text is modelled as a list of characters (Python str, ASCII fragment).
The spaCy entity recognizer is an external black box; it is modelled as an
oracle parameter that may fail, which is the sole source of faults inside
the extractors.  Regular expressions from the source are embedded as
explicit backtracking matchers over lists of characters, preserving the
leftmost and greedy preference semantics of the Python re module for the
concrete patterns appearing in the source.
-/

namespace ResumeCraft

abbrev Text := List Char

def tx (s : String) : Text := s.data

/-- Python lower() restricted to ASCII, applied characterwise. -/
def lowerT (s : Text) : Text := s.map Char.toLower

/-- The Python whitespace class (backslash-s, ASCII part). -/
def isPySpace (c : Char) : Bool :=
  c = ' ' || c = '\t' || c = '\n' || c = '\r' || c = '\x0b' || c = '\x0c'

/-- The Python word-character class (backslash-w, ASCII part). -/
def isWordChar (c : Char) : Bool := c.isAlphanum || c = '_'

def isWordOpt : Option Char → Bool
  | none => false
  | some c => isWordChar c

/-- A word boundary sits between two positions whose word-ness differs. -/
def boundaryB (prev cur : Option Char) : Bool := isWordOpt prev != isWordOpt cur

/-- startsWith n l is true when n is an initial segment of l. -/
def startsWith : Text → Text → Bool
  | [], _ => true
  | _ :: _, [] => false
  | a :: as, b :: bs => a = b && startsWith as bs

/-- Python substring containment: needle in hay holds when some suffix of
hay starts with needle. -/
def containsSub : Text → Text → Bool
  | [], needle => startsWith needle []
  | hay@(_ :: t), needle => startsWith needle hay || containsSub t needle

/-- Python str.strip() with the ASCII whitespace set. -/
def pyStrip (l : Text) : Text :=
  ((l.dropWhile isPySpace).reverse.dropWhile isPySpace).reverse

/-- Helper for splitWs: acc holds the current word, reversed. -/
def splitWsGo : Text → Text → List Text
  | acc, [] => if acc.isEmpty then [] else [acc.reverse]
  | acc, c :: rest =>
    if isPySpace c then
      if acc.isEmpty then splitWsGo [] rest
      else acc.reverse :: splitWsGo [] rest
    else splitWsGo (c :: acc) rest

/-- Python str.split() with no argument: split on whitespace runs, no empties. -/
def splitWs (l : Text) : List Text := splitWsGo [] l

/-- Prepend a character onto the first chunk of a chunk list. -/
def consHead (c : Char) : List Text → List Text
  | [] => [[c]]
  | h :: t => (c :: h) :: t

/-- Python str.split on a single newline, keeping empty chunks. -/
def splitNl : Text → List Text
  | [] => [[]]
  | c :: rest => if c = '\n' then [] :: splitNl rest else consHead c (splitNl rest)

/-- Character at absolute position p minus one, none at the left edge. -/
def prevAt (s : Text) (p : Nat) : Option Char :=
  if p = 0 then none else (s.drop (p - 1)).head?

/-- Last element of xs, falling back to prev when xs is empty. -/
def lastC (prev : Option Char) (xs : Text) : Option Char :=
  match xs.getLast? with
  | some c => some c
  | none => prev

/-! ### Backtracking matcher combinators

A matcher continuation takes the character just before the current
position (for word boundaries) and the remaining input, and returns the
remaining input after a successful match.  Alternatives are tried in the
preference order of the Python re module: literal alternation left to
right, greedy quantifiers longest first. -/

abbrev K := Option Char → Text → Option Text

/-- Accept, returning the rest of the input. -/
def endK : K := fun _ l => some l

/-- Never accept. -/
def pFail : K := fun _ _ => none

/-- Match one character of the class p. -/
def pCls (p : Char → Bool) (k : K) : K := fun _ l =>
  match l with
  | c :: rest => if p c then k (some c) rest else none
  | [] => none

/-- Greedy optional single character of class p (regex class with ?). -/
def pOptCls (p : Char → Bool) (k : K) : K := fun prev l =>
  match l with
  | c :: rest =>
    if p c then
      match k (some c) rest with
      | some r => some r
      | none => k prev l
    else k prev l
  | [] => k prev l

/-- Exactly n characters of class p. -/
def pClsN (p : Char → Bool) : Nat → K → K
  | 0, k => k
  | n + 1, k => pCls p (pClsN p n k)

/-- Try the given repetition counts in order (greedy lists descend). -/
def pClsRange (p : Char → Bool) (counts : List Nat) (k : K) : K :=
  fun prev l =>
    match counts with
    | [] => none
    | n :: ns =>
      match pClsN p n k prev l with
      | some r => some r
      | none => pClsRange p ns k prev l

/-- The descending list [hi, hi-1, ..., lo]; empty when hi < lo. -/
def countsDown (hi lo : Nat) : List Nat :=
  (List.range' lo (hi + 1 - lo)).reverse

/-- Length of the maximal munch of class p at the head of l. -/
def munch (p : Char → Bool) (l : Text) : Nat := (l.takeWhile p).length

/-- Greedy repetition of a class, at least lo times (covers +, * and open
counted repetitions, with full backtracking). -/
def pClsAtLeast (p : Char → Bool) (lo : Nat) (k : K) : K := fun prev l =>
  pClsRange p (countsDown (munch p l) lo) k prev l

/-- Word boundary, as in the regex backslash-b. -/
def pWb (k : K) : K := fun prev l =>
  if boundaryB prev l.head? then k prev l else none

/-- Case-sensitive literal. -/
def pLit : Text → K → K
  | [], k => k
  | c :: cs, k => pCls (fun x => x = c) (pLit cs k)

/-- Case-insensitive literal (Python re.IGNORECASE, ASCII). -/
def pLitCi : Text → K → K
  | [], k => k
  | c :: cs, k => pCls (fun x => x.toLower = c.toLower) (pLitCi cs k)

/-- Alternation, left preferred. -/
def pAlt (a b : K) : K := fun prev l =>
  match a prev l with
  | some r => some r
  | none => b prev l

/-- Alternation over a list of case-insensitive literals. -/
def altLitsCi (ss : List Text) (k : K) : K :=
  ss.foldr (fun s acc => pAlt (pLitCi s k) acc) pFail

/-! ### Leftmost search -/

/-- First position p with i <= p < i + n such that B p holds.
Models the left-to-right position scan of re.search. -/
def searchLeast (B : Nat → Bool) : Nat → Nat → Option Nat
  | _, 0 => none
  | i, n + 1 => if B i then some i else searchLeast B (i + 1) n

/-- Leftmost match of matcher m in s: the matched substring. -/
def reSearch (m : K) (s : Text) : Option Text :=
  match searchLeast (fun p => (m (prevAt s p) (s.drop p)).isSome) 0 (s.length + 1) with
  | some p =>
    match m (prevAt s p) (s.drop p) with
    | some rem => some ((s.drop p).take ((s.drop p).length - rem.length))
    | none => none
  | none => none

/-- Position (not content) of the leftmost match of matcher m in s. -/
def reSearchPos (m : K) (s : Text) : Option Nat :=
  searchLeast (fun p => (m (prevAt s p) (s.drop p)).isSome) 0 (s.length + 1)

/-- Non-overlapping left-to-right scan collecting all matches of m, as
re.findall.  Fuel-driven; the wrapper supplies enough fuel. -/
def scanMatchesAux (m : K) (s : Text) : Nat → Nat → List Text
  | 0, _ => []
  | fuel + 1, p =>
    if s.length ≤ p then []
    else
      match m (prevAt s p) (s.drop p) with
      | some rem =>
        let len := (s.drop p).length - rem.length
        (s.drop p).take len :: scanMatchesAux m s fuel (p + max len 1)
      | none => scanMatchesAux m s fuel (p + 1)

def scanMatches (m : K) (s : Text) : List Text :=
  scanMatchesAux m s (s.length + 1) 0

/-! ### The concrete patterns of the source -/

def emailLocalCls (c : Char) : Bool :=
  c.isAlphanum || c = '.' || c = '_' || c = '%' || c = '+' || c = '-'

def emailDomCls (c : Char) : Bool := c.isAlphanum || c = '.' || c = '-'

/-- The class [A-Z|a-z] as written in the source (the bar is a member). -/
def emailTldCls (c : Char) : Bool := c.isUpper || c = '|' || c.isLower

/-- The separator class [-.&bsol;s] of the phone patterns. -/
def sepCls (c : Char) : Bool := c = '-' || c = '.' || isPySpace c

def handleCls (c : Char) : Bool := c.isAlphanum || c = '-'

/-- Email regex of line 27 of the source. -/
def emailM : K :=
  pWb (pClsAtLeast emailLocalCls 1 (pCls (fun c => c = '@')
    (pClsAtLeast emailDomCls 1 (pCls (fun c => c = '.')
      (pClsAtLeast emailTldCls 2 (pWb endK))))))

/-- First phone pattern: international with separators (line 34). -/
def phoneM1 : K :=
  pOptCls (fun c => c = '+') (pClsRange Char.isDigit [3, 2, 1]
    (pOptCls sepCls (pOptCls (fun c => c = '(')
      (pClsN Char.isDigit 3 (pOptCls (fun c => c = ')')
        (pOptCls sepCls (pClsN Char.isDigit 3
          (pOptCls sepCls (pClsN Char.isDigit 4 endK)))))))))

/-- Second phone pattern: US style with separators (line 35). -/
def phoneM2 : K :=
  pOptCls (fun c => c = '(') (pClsN Char.isDigit 3
    (pOptCls (fun c => c = ')') (pOptCls sepCls
      (pClsN Char.isDigit 3 (pOptCls sepCls (pClsN Char.isDigit 4 endK))))))

/-- Third phone pattern: bare ten digits (line 36). -/
def phoneM3 : K := pClsN Char.isDigit 10 endK

def phonePatterns : List K := [phoneM1, phoneM2, phoneM3]

/-- The loop of lines 38-42: first pattern with any match wins, and its
first match is taken. -/
def firstPatMatch : List K → Text → Option Text
  | [], _ => none
  | m :: rest, s =>
    match reSearch m s with
    | some r => some r
    | none => firstPatMatch rest s

def phoneOf (text : Text) : Option Text := firstPatMatch phonePatterns text

/-- LinkedIn handle pattern (line 45), case-insensitive. -/
def linkedinM : K := pLitCi (tx "linkedin.com/in/") (pClsAtLeast handleCls 1 endK)

/-- GitHub handle pattern (line 50), case-insensitive. -/
def githubM : K := pLitCi (tx "github.com/") (pClsAtLeast handleCls 1 endK)

def monthLits : List Text :=
  [tx "Jan", tx "Feb", tx "Mar", tx "Apr", tx "May", tx "Jun",
   tx "Jul", tx "Aug", tx "Sep", tx "Oct", tx "Nov", tx "Dec"]

/-- The class [a-z] under IGNORECASE: any ASCII letter. -/
def letterCls (c : Char) : Bool := c.isLower || c.isUpper

/-- Date pattern of line 136: month name plus year, or a bare year. -/
def dateM : K :=
  pAlt
    (altLitsCi monthLits (pClsAtLeast letterCls 0 (pOptCls (fun c => c = '.')
      (pClsAtLeast isPySpace 1 (pClsN Char.isDigit 4 endK)))))
    (pClsN Char.isDigit 4 endK)

/-- Year pattern of line 193: a 4-digit 19xx or 20xx token between word
boundaries, written out directly. -/
def yearM : K := fun prev l =>
  match l with
  | a :: b :: c :: d :: rest =>
    if boundaryB prev (some a)
        && ((a = '1' && b = '9') || (a = '2' && b = '0'))
        && c.isDigit && d.isDigit
        && boundaryB (some d) rest.head?
    then some rest else none
  | _ => none

/-! ### Data model -/

structure Entity where
  label : String
  text : Text
deriving DecidableEq

/-- The entity recognizer oracle (spaCy nlp).  It is external; a call may
fail, which is the only fault source inside the extractors. -/
abbrev NER := Text → Except Text (List Entity)

structure Contact where
  email : Option Text
  phone : Option Text
  name : Option Text
  linkedin : Option Text
  github : Option Text
deriving DecidableEq

structure ExpItem where
  title : Option Text
  company : Option Text
  duration : Option Text
  description : Option Text
deriving DecidableEq

structure EduItem where
  degree : Option Text
  institution : Option Text
  year : Option Text
  field : Option Text
deriving DecidableEq

structure Summary where
  totalSkills : Nat
  totalExperience : Nat
  totalEducation : Nat
deriving DecidableEq

/-! ### Contact extractor (lines 16-61) -/

def extract_contact_info (ner : NER) (text : Text) : Except Text Contact := do
  let email := reSearch emailM text
  let phone := phoneOf text
  let linkedin := (reSearch linkedinM text).map
    (fun m => tx "linkedin.com/in/" ++ m.drop (tx "linkedin.com/in/").length)
  let github := (reSearch githubM text).map
    (fun m => tx "github.com/" ++ m.drop (tx "github.com/").length)
  let ents ← ner (text.take 500)
  let name := (ents.find? (fun e =>
    e.label = "PERSON" && decide ((splitWs e.text).length ≤ 4))).map (·.text)
  pure ⟨email, phone, name, linkedin, github⟩

/-! ### Skill matcher (lines 64-108) -/

def skill_keywords : List Text :=
  [tx "Python", tx "JavaScript", tx "Java", tx "C++", tx "C#", tx "Ruby",
   tx "PHP", tx "Swift", tx "Kotlin", tx "Go", tx "Rust", tx "TypeScript",
   tx "R", tx "MATLAB", tx "Scala", tx "Perl",
   tx "HTML", tx "CSS", tx "React", tx "Angular", tx "Vue.js", tx "Node.js",
   tx "Express.js", tx "Django", tx "Flask", tx "FastAPI", tx "Spring Boot",
   tx "ASP.NET", tx "jQuery", tx "Next.js", tx "Nuxt.js", tx "Svelte",
   tx "Tailwind CSS", tx "Bootstrap",
   tx "SQL", tx "MySQL", tx "PostgreSQL", tx "MongoDB", tx "Redis",
   tx "Cassandra", tx "Oracle", tx "SQLite", tx "DynamoDB", tx "Firebase",
   tx "Neo4j", tx "MariaDB",
   tx "AWS", tx "Azure", tx "GCP", tx "Docker", tx "Kubernetes", tx "Jenkins",
   tx "CI/CD", tx "Terraform", tx "Ansible", tx "Git", tx "GitHub",
   tx "GitLab", tx "Bitbucket", tx "Linux", tx "Unix", tx "Shell Scripting",
   tx "Bash",
   tx "Machine Learning", tx "Deep Learning", tx "TensorFlow", tx "PyTorch",
   tx "Keras", tx "Scikit-learn", tx "Pandas", tx "NumPy", tx "NLP",
   tx "Computer Vision", tx "AI", tx "Data Analysis", tx "Statistics",
   tx "Tableau", tx "Power BI", tx "Spark",
   tx "Android", tx "iOS", tx "React Native", tx "Flutter", tx "Xamarin",
   tx "REST API", tx "GraphQL", tx "Microservices", tx "Agile", tx "Scrum",
   tx "JIRA", tx "Testing", tx "Unit Testing", tx "Jest", tx "Pytest",
   tx "Selenium"]

/-- Lines 99-108: the source iterates over a Python set and deduplicates;
the result is a set of canonical-cased vocabulary terms whose lowered form
occurs in the lowered text.  It is embedded as a filter of the (duplicate
free) vocabulary. -/
def extract_skills (text : Text) : List Text :=
  skill_keywords.filter (fun sk => containsSub (lowerT text) (lowerT sk))

/-! ### Section extractor (lines 208-237) -/

/-- A whole-word match of kw at the head of l, where prev is the character
just before l; embeds the regex word kw between two word boundaries. -/
def wordMatchAtList (prev : Option Char) (kw : Text) (l : Text) : Bool :=
  boundaryB prev l.head? && startsWith kw l
    && boundaryB (lastC prev kw) ((l.drop kw.length).head?)

/-- Whole-word occurrence of kw at position p of s. -/
def wordPosB (s kw : Text) (p : Nat) : Bool :=
  wordMatchAtList (prevAt s p) kw (s.drop p)

/-- Lines 213-219: first keyword, in list order, with a whole-word match;
its leftmost match position is the section start. -/
def sectionStart : List Text → Text → Option Nat
  | [], _ => none
  | kw :: rest, s =>
    match searchLeast (fun p => wordPosB s kw p) 0 (s.length + 1) with
    | some p => some p
    | none => sectionStart rest s

def sectionHeaders : List Text :=
  [tx "experience", tx "education", tx "skills", tx "projects",
   tx "certifications", tx "awards", tx "summary", tx "objective",
   tx "references"]

/-- After a newline, skip the whitespace run, then require a whole-word
match of hdr.  Together with nlHdrAtB this embeds the regex of line 230
(newline, optional whitespace, hdr between word boundaries); since a word
boundary follows the whitespace, only the maximal whitespace run can
succeed, so no backtracking is needed. -/
def wsThenWord (hdr : Text) : Option Char → Text → Bool
  | prev, [] => wordMatchAtList prev hdr []
  | prev, c :: rest =>
    if isPySpace c then wsThenWord hdr (some c) rest
    else wordMatchAtList prev hdr (c :: rest)

def nlHdrAtB (hdr : Text) : Text → Bool
  | c :: rest => c = '\n' && wsThenWord hdr (some '\n') rest
  | [] => false

def nlHdrB (t hdr : Text) (j : Nat) : Bool := nlHdrAtB hdr (t.drop j)

/-- re.search of the header pattern inside a slice: leftmost position. -/
def hdrSearch (t hdr : Text) : Option Nat :=
  searchLeast (fun j => nlHdrB t hdr j) 0 (t.length + 1)

/-- One iteration of the loop of lines 229-234: keep the smaller of the
accumulator and the candidate end for this header, if any. -/
def sectionEndStep (t : Text) (start : Nat) (acc : Nat) (hdr : Text) : Nat :=
  match hdrSearch t hdr with
  | some j => if start + 50 + j < acc then start + 50 + j else acc
  | none => acc

/-- Lines 225-235: candidate end positions are searched in the lowered
text sliced 50 characters past the start; the minimum wins, defaulting to
the text length. -/
def sectionEnd (tl : Text) (len start : Nat) : Nat :=
  sectionHeaders.foldl (sectionEndStep (tl.drop (start + 50)) start) len

def extract_section (text : Text) (kws : List Text) : Option Text :=
  let tl := lowerT text
  match sectionStart kws tl with
  | none => none
  | some start =>
    some ((text.drop start).take (sectionEnd tl text.length start - start))

/-! ### Entry segmentation -/

def fourDigitsB : Text → Bool
  | a :: b :: c :: d :: _ => a.isDigit && b.isDigit && c.isDigit && d.isDigit
  | _ => false

/-- Case-insensitive literal test at the head of a list. -/
def ciStartsWith : Text → Text → Bool
  | [], _ => true
  | _ :: _, [] => false
  | a :: as, b :: bs => a.toLower = b.toLower && ciStartsWith as bs

/-- Lookahead of the split of line 122: four digits, or a word-character
run, a whitespace run, then four digits.  The quantified runs are forced
to be maximal because the classes are disjoint from what follows. -/
def expLookB (rest : Text) : Bool :=
  fourDigitsB rest ||
    (!(rest.takeWhile isWordChar).isEmpty &&
      (!((rest.dropWhile isWordChar).takeWhile isPySpace).isEmpty &&
        fourDigitsB ((rest.dropWhile isWordChar).dropWhile isPySpace)))

/-- re.split of line 122: cut at each newline whose lookahead matches;
the newline is consumed. -/
def splitExp : Text → List Text
  | [] => [[]]
  | c :: rest =>
    if c = '\n' && expLookB rest then [] :: splitExp rest
    else consHead c (splitExp rest)

/-- Lookahead of the split of line 173 (IGNORECASE). -/
def eduLookB (rest : Text) : Bool :=
  fourDigitsB rest || ciStartsWith (tx "Bachelor") rest
    || ciStartsWith (tx "Master") rest || ciStartsWith (tx "PhD") rest
    || ciStartsWith (tx "B.") rest

/-- re.split of line 173. -/
def splitEdu : Text → List Text
  | [] => [[]]
  | c :: rest =>
    if c = '\n' && eduLookB rest then [] :: splitEdu rest
    else consHead c (splitEdu rest)

def expKeywords : List Text :=
  [tx "experience", tx "work history", tx "employment",
   tx "professional experience"]

def eduKeywords : List Text :=
  [tx "education", tx "academic", tx "qualifications", tx "degree"]

/-- The raw chunks the experience loop of lines 124-153 iterates over. -/
def expChunks (text : Text) : List Text :=
  match extract_section text expKeywords with
  | none => []
  | some sec => if sec.isEmpty then [] else splitExp sec

/-- The raw chunks the education loop of lines 175-203 iterates over. -/
def eduChunks (text : Text) : List Text :=
  match extract_section text eduKeywords with
  | none => []
  | some sec => if sec.isEmpty then [] else splitEdu sec

/-- Join a list of texts with the given separator. -/
def joinSep (sep : Text) : List Text → Text
  | [] => []
  | [x] => x
  | x :: y :: rest => x ++ sep ++ joinSep sep (y :: rest)

/-- Lines 128-153: one experience entry. -/
def mkExpItem (ner : NER) (entry : Text) : Except Text ExpItem := do
  let dates := scanMatches dateM entry
  let duration := if dates.isEmpty then none else some (joinSep (tx " - ") (dates.take 2))
  let ents ← ner (entry.take 300)
  let company := ((ents.filter (fun e => e.label = "ORG")).map (·.text)).head?
  let lines := splitNl (pyStrip entry)
  let title := lines.head?.map (fun l => (pyStrip l).take 100)
  pure ⟨title, company, duration, some ((pyStrip entry).take 500)⟩

/-- Lines 111-155. -/
def extract_experience (ner : NER) (text : Text) : Except Text (List ExpItem) :=
  match extract_section text expKeywords with
  | none => pure []
  | some sec =>
    if sec.isEmpty then pure []
    else do
      let kept := (splitExp sec).filter (fun e => decide (20 ≤ (pyStrip e).length))
      let items ← kept.mapM (mkExpItem ner)
      pure (items.take 5)

def degrees : List Text :=
  [tx "Bachelor", tx "Master", tx "PhD", tx "B.Tech", tx "M.Tech",
   tx "B.S.", tx "M.S.", tx "BA", tx "MA", tx "MBA", tx "B.E.", tx "M.E.",
   tx "Associate"]

/-- Lines 179-203: one education entry. -/
def mkEduItem (ner : NER) (entry : Text) : Except Text EduItem := do
  let degree := degrees.find? (fun d => containsSub (lowerT entry) (lowerT d))
  let year := (scanMatches yearM entry).getLast?
  let ents ← ner entry
  let institution := ((ents.filter (fun e => e.label = "ORG")).map (·.text)).head?
  pure ⟨degree, institution, year, none⟩

/-- Lines 158-205. -/
def extract_education (ner : NER) (text : Text) : Except Text (List EduItem) :=
  match extract_section text eduKeywords with
  | none => pure []
  | some sec =>
    if sec.isEmpty then pure []
    else do
      let kept := (splitEdu sec).filter (fun e => decide (10 ≤ (pyStrip e).length))
      let items ← kept.mapM (mkEduItem ner)
      pure (items.take 3)

/-! ### Orchestrator and output shape (lines 240-289) -/

inductive ResumeResult where
  | success (contact : Contact) (skills : List Text)
      (experience : List ExpItem) (education : List EduItem)
      (summary : Summary)
  | failure (msg : Text)
deriving DecidableEq

/-- Lines 240-269: run the four extractors; any fault is downgraded to
the failure variant. -/
def extract_resume_data (ner : NER) (text : Text) : ResumeResult :=
  match (do
    let contact ← extract_contact_info ner text
    let skills := extract_skills text
    let experience ← extract_experience ner text
    let education ← extract_education ner text
    pure (contact, skills, experience, education) : Except Text _) with
  | .ok (c, sk, ex, ed) => .success c sk ex ed ⟨sk.length, ex.length, ed.length⟩
  | .error e => .failure e

inductive Json where
  | null
  | str (s : Text)
  | num (n : Nat)
  | bool (b : Bool)
  | arr (xs : List Json)
  | obj (fields : List (String × Json))

def optJson : Option Text → Json
  | none => .null
  | some t => .str t

def contactJson (c : Contact) : Json :=
  .obj [("email", optJson c.email), ("phone", optJson c.phone),
        ("name", optJson c.name), ("linkedin", optJson c.linkedin),
        ("github", optJson c.github)]

def expItemJson (e : ExpItem) : Json :=
  .obj [("title", optJson e.title), ("company", optJson e.company),
        ("duration", optJson e.duration), ("description", optJson e.description)]

def eduItemJson (e : EduItem) : Json :=
  .obj [("degree", optJson e.degree), ("institution", optJson e.institution),
        ("year", optJson e.year), ("field", optJson e.field)]

def summaryJson (s : Summary) : Json :=
  .obj [("totalSkills", .num s.totalSkills),
        ("totalExperience", .num s.totalExperience),
        ("totalEducation", .num s.totalEducation)]

/-- The serialized shape of the two result variants (lines 250-260 and
265-269). -/
def resultToJson : ResumeResult → Json
  | .success c sk ex ed sm =>
    .obj [("contact", contactJson c), ("skills", .arr (sk.map .str)),
          ("experience", .arr (ex.map expItemJson)),
          ("education", .arr (ed.map eduItemJson)),
          ("summary", summaryJson sm)]
  | .failure e =>
    .obj [("error", .str e), ("skipped", .bool true),
          ("reason", .str (tx "Extraction failed: " ++ e))]

def topKeys : Json → List String
  | .obj fs => fs.map (fun f => f.1)
  | _ => []

def isSuccessR : ResumeResult → Bool
  | .success _ _ _ _ _ => true
  | .failure _ => false

inductive MainOut where
  | rejected (j : Json) (exitCode : Nat)
  | emitted (j : Json)

/-- Lines 272-285: the guard of line 277 is equivalent to a length test,
since an empty text also has length below 50.  The rejection prints the
two-key error object and exits with status 1. -/
def main_run (ner : NER) (raw : Text) : MainOut :=
  if raw.length < 50 then
    .rejected (.obj [("error", .str (tx "Input text too short")),
                     ("skipped", .bool true)]) 1
  else
    .emitted (resultToJson (extract_resume_data ner raw))

/-! ### Oracles used in witnesses and counterexamples -/

/-- An entity recognizer that always succeeds with no entities. -/
def nerNone : NER := fun _ => .ok []

/-- An entity recognizer that always faults. -/
def nerFail : NER := fun _ => .error (tx "boom")

/-! ### Generic lemmas -/

theorem bool_ne_true {b : Bool} (h : ¬ b = true) : b = false := by
  cases b
  · rfl
  · exact absurd rfl h

theorem startsWith_iff (n : Text) : ∀ l : Text, startsWith n l = true ↔ ∃ r, l = n ++ r := by
  induction n with
  | nil => intro l; simp [startsWith]
  | cons a as ih =>
    intro l
    cases l with
    | nil =>
      simp only [startsWith]
      constructor
      · intro h; cases h
      · rintro ⟨r, h⟩; cases h
    | cons b bs =>
      simp only [startsWith, Bool.and_eq_true, decide_eq_true_eq, ih]
      constructor
      · rintro ⟨rfl, r, rfl⟩; exact ⟨r, rfl⟩
      · rintro ⟨r, h⟩
        injection h with h1 h2
        exact ⟨h1.symm, r, h2⟩

theorem containsSub_iff (needle : Text) :
    ∀ hay : Text, containsSub hay needle = true ↔ ∃ l r, hay = l ++ needle ++ r := by
  intro hay
  induction hay with
  | nil =>
    simp only [containsSub, startsWith_iff]
    constructor
    · rintro ⟨r, h⟩
      exact ⟨[], r, by simpa using h⟩
    · rintro ⟨l, r, h⟩
      have h2 := List.append_eq_nil.1 h.symm
      have h3 := List.append_eq_nil.1 h2.1
      exact ⟨r, by rw [h3.2, h2.2]; rfl⟩
  | cons a t ih =>
    simp only [containsSub, Bool.or_eq_true, startsWith_iff, ih]
    constructor
    · rintro (⟨r, hr⟩ | ⟨l, r, hlr⟩)
      · exact ⟨[], r, by simpa using hr⟩
      · exact ⟨a :: l, r, by rw [hlr]; rfl⟩
    · rintro ⟨l, r, hlr⟩
      cases l with
      | nil => exact .inl ⟨r, by simpa using hlr⟩
      | cons b l2 =>
        injection hlr with h1 h2
        exact .inr ⟨l2, r, h2⟩

theorem pyStrip_length_le (l : Text) : (pyStrip l).length ≤ l.length := by
  unfold pyStrip
  calc ((l.dropWhile isPySpace).reverse.dropWhile isPySpace).reverse.length
      = ((l.dropWhile isPySpace).reverse.dropWhile isPySpace).length :=
        List.length_reverse _
    _ ≤ (l.dropWhile isPySpace).reverse.length :=
        (List.dropWhile_sublist _).length_le
    _ = (l.dropWhile isPySpace).length := List.length_reverse _
    _ ≤ l.length := (List.dropWhile_sublist _).length_le

theorem searchLeast_eq_some (B : Nat → Bool) :
    ∀ (n i p : Nat), searchLeast B i n = some p ↔
      i ≤ p ∧ p < i + n ∧ B p = true ∧ ∀ q, i ≤ q → q < p → B q = false := by
  intro n
  induction n with
  | zero =>
    intro i p
    simp only [searchLeast]
    constructor
    · intro h; cases h
    · rintro ⟨h1, h2, -⟩; omega
  | succ n ih =>
    intro i p
    simp only [searchLeast]
    by_cases hB : B i = true
    · rw [if_pos hB]
      constructor
      · intro h
        injection h with h
        subst h
        exact ⟨Nat.le_refl _, by omega, hB, fun q hq1 hq2 => by omega⟩
      · rintro ⟨h1, h2, h3, h4⟩
        rcases Nat.lt_or_ge i p with hlt | hge
        · exact absurd (h4 i (Nat.le_refl _) hlt) (by simp [hB])
        · have : p = i := Nat.le_antisymm hge h1
          rw [this]
    · rw [if_neg hB]
      rw [ih (i + 1) p]
      have hBf : B i = false := bool_ne_true hB
      constructor
      · rintro ⟨h1, h2, h3, h4⟩
        refine ⟨by omega, by omega, h3, fun q hq1 hq2 => ?_⟩
        rcases Nat.eq_or_lt_of_le hq1 with h | h
        · rw [← h]; exact hBf
        · exact h4 q (by omega) hq2
      · rintro ⟨h1, h2, h3, h4⟩
        have hip : i ≠ p := by
          rintro rfl
          rw [h3] at hBf
          cases hBf
        exact ⟨by omega, by omega, h3, fun q hq1 hq2 => h4 q (by omega) hq2⟩

theorem searchLeast_eq_none (B : Nat → Bool) :
    ∀ (n i : Nat), searchLeast B i n = none ↔ ∀ q, i ≤ q → q < i + n → B q = false := by
  intro n
  induction n with
  | zero =>
    intro i
    constructor
    · intro _ q h1 h2
      exact absurd h2 (by omega)
    · intro _
      rfl
  | succ n ih =>
    intro i
    simp only [searchLeast]
    by_cases hB : B i = true
    · rw [if_pos hB]
      constructor
      · intro h; cases h
      · intro h
        have := h i (Nat.le_refl _) (by omega)
        rw [hB] at this
        cases this
    · rw [if_neg hB]
      rw [ih (i + 1)]
      have hBf : B i = false := bool_ne_true hB
      constructor
      · intro h q hq1 hq2
        rcases Nat.eq_or_lt_of_le hq1 with he | hlt
        · rw [← he]; exact hBf
        · exact h q (by omega) (by omega)
      · intro h q hq1 hq2
        exact h q (by omega) (by omega)

theorem except_bind_ok {α β : Type} (a : α) (f : α → Except Text β) :
    ((Except.ok a : Except Text α) >>= f) = f a := rfl

theorem mapM_ok_forall2 {α β : Type} (f : α → Except Text β) :
    ∀ (l : List α) (res : List β), l.mapM f = .ok res →
      List.Forall₂ (fun a b => f a = .ok b) l res := by
  intro l
  induction l with
  | nil =>
    intro res h
    rw [List.mapM_nil] at h
    injection h with h
    rw [← h]
    exact List.Forall₂.nil
  | cons a t ih =>
    intro res h
    rw [List.mapM_cons] at h
    cases hfa : f a with
    | error e => rw [hfa] at h; cases h
    | ok b =>
      rw [hfa, except_bind_ok] at h
      cases hmt : t.mapM f with
      | error e => rw [hmt] at h; cases h
      | ok bs =>
        rw [hmt, except_bind_ok] at h
        injection h with h
        rw [← h]
        exact List.Forall₂.cons hfa (ih bs hmt)

theorem forall2_mem_right {α β : Type} {R : α → β → Prop} :
    ∀ {l₁ : List α} {l₂ : List β}, List.Forall₂ R l₁ l₂ → ∀ b ∈ l₂, ∃ a ∈ l₁, R a b := by
  intro l₁ l₂ h
  induction h with
  | nil => intro b hb; cases hb
  | cons hab htl ih =>
    intro b hb
    rcases List.mem_cons.1 hb with rfl | hb2
    · exact ⟨_, List.mem_cons_self _ _, hab⟩
    · obtain ⟨a, ha, har⟩ := ih b hb2
      exact ⟨a, List.mem_cons_of_mem _ ha, har⟩

/-! ### Claim C1 -/

/-- C1: for every oracle and input document, the orchestrator returns a
result object: either the success variant or the failure variant, whose
serialization carries the fault description under the error key together
with skipped true and a reason; no fault ever escapes to the caller. -/
theorem c1_orchestrator_total (ner : NER) (text : Text) :
    (∃ c sk ex ed sm, extract_resume_data ner text = .success c sk ex ed sm) ∨
    (∃ e, extract_resume_data ner text = .failure e ∧
      resultToJson (.failure e) =
        .obj [("error", .str e), ("skipped", .bool true),
              ("reason", .str (tx "Extraction failed: " ++ e))]) := by
  unfold extract_resume_data
  split
  · exact .inl ⟨_, _, _, _, _, rfl⟩
  · rename_i e h
    exact .inr ⟨e, rfl, rfl⟩

/-! ### Claim C2 -/

/-- C2: every input shorter than 50 characters is rejected with the error
object carrying skipped true and exit status 1, and the outcome does not
depend on the oracle, so no extractor is invoked. -/
theorem c2_short_input_rejected (ner₁ ner₂ : NER) (raw : Text)
    (h : raw.length < 50) :
    main_run ner₁ raw =
      .rejected (.obj [("error", .str (tx "Input text too short")),
                       ("skipped", .bool true)]) 1
    ∧ main_run ner₁ raw = main_run ner₂ raw := by
  constructor
  · unfold main_run
    rw [if_pos h]
  · unfold main_run
    rw [if_pos h, if_pos h]

theorem c2_short_input_rejected_witness :
    main_run nerNone (tx "too short") =
      .rejected (.obj [("error", .str (tx "Input text too short")),
                       ("skipped", .bool true)]) 1
    ∧ main_run nerNone (tx "too short") = main_run nerFail (tx "too short") :=
  c2_short_input_rejected nerNone nerFail (tx "too short") (by decide)

/-! ### Claim C3 -/

def c3text : Text := tx "x"

/-- C3 counterexample: an orchestrator error result does not have exactly
the two keys error and skipped; it carries a third key, reason. -/
theorem c3_error_keys_counterexample :
    extract_resume_data nerFail c3text = .failure (tx "boom")
    ∧ topKeys (resultToJson (extract_resume_data nerFail c3text)) =
        ["error", "skipped", "reason"]
    ∧ (["error", "skipped", "reason"] : List String) ≠ ["error", "skipped"] :=
  ⟨rfl, rfl, by decide⟩

/-- C3 amended: every success result has exactly the five keys contact,
skills, experience, education, summary; every orchestrator error result
has exactly the three keys error, skipped, reason. -/
theorem c3_result_keys (ner : NER) (text : Text) :
    (topKeys (resultToJson (extract_resume_data ner text)) =
        ["contact", "skills", "experience", "education", "summary"]
      ∧ isSuccessR (extract_resume_data ner text) = true)
    ∨ (topKeys (resultToJson (extract_resume_data ner text)) =
        ["error", "skipped", "reason"]
      ∧ isSuccessR (extract_resume_data ner text) = false) := by
  cases h : extract_resume_data ner text with
  | success c sk ex ed sm =>
    left
    exact ⟨rfl, rfl⟩
  | failure e =>
    right
    exact ⟨rfl, rfl⟩

/-! ### Claim C4 -/

/-- C4: the skill matcher returns exactly the vocabulary terms, in their
canonical casing and without duplicates, whose lowered form occurs as a
substring of the lowered input; containment is plain substring, not token
matching. -/
theorem c4_skills_substring (text : Text) :
    (extract_skills text).Nodup
    ∧ ∀ sk, sk ∈ extract_skills text ↔
        (sk ∈ skill_keywords ∧ ∃ l r, lowerT text = l ++ lowerT sk ++ r) := by
  constructor
  · exact (by decide : skill_keywords.Nodup).filter _
  · intro sk
    simp only [extract_skills, List.mem_filter, containsSub_iff]

/-! ### Claim C9 -/

/-- C9: when neither the experience nor the education synonym list has a
whole-word match, both entry lists are empty and the result is still the
success variant, with contact and skills computed. -/
theorem c9_no_sections_success (ner : NER) (f : Text → List Entity)
    (hner : ∀ s, ner s = .ok (f s)) (text : Text)
    (h1 : extract_section text expKeywords = none)
    (h2 : extract_section text eduKeywords = none) :
    ∃ c sk, extract_resume_data ner text =
      .success c sk [] [] ⟨sk.length, 0, 0⟩ := by
  have hexp : extract_experience ner text = .ok [] := by
    unfold extract_experience
    rw [h1]
    rfl
  have hedu : extract_education ner text = .ok [] := by
    unfold extract_education
    rw [h2]
    rfl
  have hc : ∃ c, extract_contact_info ner text = .ok c := by
    unfold extract_contact_info
    rw [hner]
    exact ⟨_, rfl⟩
  obtain ⟨c, hc⟩ := hc
  refine ⟨c, extract_skills text, ?_⟩
  unfold extract_resume_data
  simp only [hc, hexp, hedu, except_bind_ok]
  rfl

theorem c9_no_sections_success_witness :
    ∃ c sk, extract_resume_data nerNone (tx "hello there friend") =
      .success c sk [] [] ⟨sk.length, 0, 0⟩ :=
  c9_no_sections_success nerNone (fun _ => []) (fun _ => rfl)
    (tx "hello there friend") rfl rfl

/-! ### Claim C6 -/

theorem except_bind_error {α β : Type} (e : Text) (f : α → Except Text β) :
    ((Except.error e : Except Text α) >>= f) = .error e := rfl

theorem exp_ok_structure (ner : NER) (text : Text) (res : List ExpItem)
    (h : extract_experience ner text = .ok res) :
    ∃ kept items,
      kept = (expChunks text).filter (fun e => decide (20 ≤ (pyStrip e).length))
      ∧ kept.mapM (mkExpItem ner) = .ok items ∧ res = items.take 5 := by
  unfold extract_experience at h
  cases hs : extract_section text expKeywords with
  | none =>
    rw [hs] at h
    have hres : res = [] := by
      have h2 : (Except.ok [] : Except Text (List ExpItem)) = .ok res := h
      injection h2 with h2
      exact h2.symm
    refine ⟨[], [], ?_, rfl, by rw [hres]; rfl⟩
    unfold expChunks
    rw [hs]
    rfl
  | some sec =>
    rw [hs] at h
    dsimp only at h
    by_cases he : sec.isEmpty = true
    · rw [if_pos he] at h
      have hres : res = [] := by
        have h2 : (Except.ok [] : Except Text (List ExpItem)) = .ok res := h
        injection h2 with h2
        exact h2.symm
      refine ⟨[], [], ?_, rfl, by rw [hres]; rfl⟩
      unfold expChunks
      rw [hs]
      dsimp only
      rw [if_pos he]
      rfl
    · rw [if_neg he] at h
      cases hm : ((splitExp sec).filter
          (fun e => decide (20 ≤ (pyStrip e).length))).mapM (mkExpItem ner) with
      | error e =>
        rw [hm, except_bind_error] at h
        exact Except.noConfusion h
      | ok items =>
        rw [hm, except_bind_ok] at h
        have h2 : (Except.ok (items.take 5) : Except Text (List ExpItem)) = .ok res := h
        injection h2 with h2
        refine ⟨_, items, ?_, hm, h2.symm⟩
        unfold expChunks
        rw [hs]
        dsimp only
        rw [if_neg he]

/-- C6: experience extraction returns at most 5 entries; they arise, in
document order, from split chunks whose stripped and raw lengths are at
least 20 characters. -/
theorem c6_experience_bounds (ner : NER) (text : Text) (res : List ExpItem)
    (h : extract_experience ner text = .ok res) :
    res.length ≤ 5
    ∧ ∃ chunks, chunks.Sublist (expChunks text)
      ∧ (∀ ck ∈ chunks, 20 ≤ (pyStrip ck).length ∧ 20 ≤ ck.length)
      ∧ List.Forall₂ (fun ck it => mkExpItem ner ck = .ok it) chunks res := by
  obtain ⟨kept, items, hk, hm, hr⟩ := exp_ok_structure ner text res h
  have hf2 := mapM_ok_forall2 _ kept items hm
  refine ⟨?_, kept.take 5, ?_, ?_, ?_⟩
  · rw [hr]
    exact List.length_take_le _ _
  · exact (List.take_sublist _ _).trans (by rw [hk]; exact List.filter_sublist _)
  · intro ck hck
    have hck2 : ck ∈ kept := List.mem_of_mem_take hck
    rw [hk] at hck2
    have h20 : 20 ≤ (pyStrip ck).length :=
      of_decide_eq_true (List.mem_filter.1 hck2).2
    exact ⟨h20, le_trans h20 (pyStrip_length_le ck)⟩
  · rw [hr]
    exact List.forall₂_take 5 hf2

def c6text : Text :=
  tx "experience\nworked at a company for years doing stuff\n2020 another role with plenty of text here"

def c6res : List ExpItem :=
  match extract_experience nerNone c6text with
  | .ok r => r
  | .error _ => []

theorem c6_experience_bounds_witness :
    c6res.length ≤ 5
    ∧ ∃ chunks, chunks.Sublist (expChunks c6text)
      ∧ (∀ ck ∈ chunks, 20 ≤ (pyStrip ck).length ∧ 20 ≤ ck.length)
      ∧ List.Forall₂ (fun ck it => mkExpItem nerNone ck = .ok it) chunks c6res :=
  c6_experience_bounds nerNone c6text c6res rfl

/-! ### Claims C10 and C7: education entries -/

theorem edu_ok_structure (ner : NER) (text : Text) (res : List EduItem)
    (h : extract_education ner text = .ok res) :
    ∃ kept items,
      kept = (eduChunks text).filter (fun e => decide (10 ≤ (pyStrip e).length))
      ∧ kept.mapM (mkEduItem ner) = .ok items ∧ res = items.take 3 := by
  unfold extract_education at h
  cases hs : extract_section text eduKeywords with
  | none =>
    rw [hs] at h
    have hres : res = [] := by
      have h2 : (Except.ok [] : Except Text (List EduItem)) = .ok res := h
      injection h2 with h2
      exact h2.symm
    refine ⟨[], [], ?_, rfl, by rw [hres]; rfl⟩
    unfold eduChunks
    rw [hs]
    rfl
  | some sec =>
    rw [hs] at h
    dsimp only at h
    by_cases he : sec.isEmpty = true
    · rw [if_pos he] at h
      have hres : res = [] := by
        have h2 : (Except.ok [] : Except Text (List EduItem)) = .ok res := h
        injection h2 with h2
        exact h2.symm
      refine ⟨[], [], ?_, rfl, by rw [hres]; rfl⟩
      unfold eduChunks
      rw [hs]
      dsimp only
      rw [if_pos he]
      rfl
    · rw [if_neg he] at h
      cases hm : ((splitEdu sec).filter
          (fun e => decide (10 ≤ (pyStrip e).length))).mapM (mkEduItem ner) with
      | error e =>
        rw [hm, except_bind_error] at h
        exact Except.noConfusion h
      | ok items =>
        rw [hm, except_bind_ok] at h
        have h2 : (Except.ok (items.take 3) : Except Text (List EduItem)) = .ok res := h
        injection h2 with h2
        refine ⟨_, items, ?_, hm, h2.symm⟩
        unfold eduChunks
        rw [hs]
        dsimp only
        rw [if_neg he]

theorem mkEduItem_ok (ner : NER) (entry : Text) (it : EduItem)
    (h : mkEduItem ner entry = .ok it) :
    it.degree = degrees.find? (fun d => containsSub (lowerT entry) (lowerT d))
    ∧ it.year = (scanMatches yearM entry).getLast? := by
  unfold mkEduItem at h
  cases hne : ner entry with
  | error e =>
    rw [hne, except_bind_error] at h
    exact Except.noConfusion h
  | ok ents =>
    rw [hne, except_bind_ok] at h
    have h2 : (Except.ok (⟨degrees.find? (fun d => containsSub (lowerT entry) (lowerT d)),
        ((ents.filter (fun e => e.label = "ORG")).map (fun e => e.text)).head?,
        (scanMatches yearM entry).getLast?, none⟩ : EduItem) : Except Text EduItem)
        = .ok it := h
    injection h2 with h2
    exact ⟨by rw [← h2], by rw [← h2]⟩

/-- Shared correspondence: every returned education item arises from a
chunk of the education split that survived the length filter. -/
theorem edu_item_from_chunk (ner : NER) (text : Text) (res : List EduItem)
    (it : EduItem) (h : extract_education ner text = .ok res) (hit : it ∈ res) :
    ∃ ck, ck ∈ eduChunks text ∧ mkEduItem ner ck = .ok it := by
  obtain ⟨kept, items, hk, hm, hr⟩ := edu_ok_structure ner text res h
  have hf2 := mapM_ok_forall2 _ kept items hm
  have hit2 : it ∈ items := by
    rw [hr] at hit
    exact List.mem_of_mem_take hit
  obtain ⟨ck, hckk, hcko⟩ := forall2_mem_right hf2 it hit2
  refine ⟨ck, ?_, hcko⟩
  rw [hk] at hckk
  exact (List.mem_filter.1 hckk).1

/-- C10: the degree of an education entry is the first keyword of the
fixed degrees list whose lowered form occurs anywhere as a substring of
the lowered entry text, and it is unset exactly when no keyword occurs. -/
theorem c10_degree_substring (ner : NER) (text : Text) (res : List EduItem)
    (it : EduItem) (h : extract_education ner text = .ok res) (hit : it ∈ res) :
    ∃ ck, ck ∈ eduChunks text ∧ mkEduItem ner ck = .ok it
      ∧ (∀ d, it.degree = some d ↔
          ∃ ds₁ ds₂, degrees = ds₁ ++ d :: ds₂
            ∧ (∃ l r, lowerT ck = l ++ lowerT d ++ r)
            ∧ ∀ d₂ ∈ ds₁, ¬ ∃ l r, lowerT ck = l ++ lowerT d₂ ++ r)
      ∧ (it.degree = none ↔ ∀ d ∈ degrees, ¬ ∃ l r, lowerT ck = l ++ lowerT d ++ r) := by
  obtain ⟨ck, hcke, hcko⟩ := edu_item_from_chunk ner text res it h hit
  obtain ⟨hdeg, -⟩ := mkEduItem_ok ner ck it hcko
  refine ⟨ck, hcke, hcko, ?_, ?_⟩
  · intro d
    rw [hdeg, List.find?_eq_some]
    constructor
    · rintro ⟨hpd, as, bs, hdecomp, hpre⟩
      refine ⟨as, bs, hdecomp, (containsSub_iff _ _).1 hpd, fun d₂ hd₂ hex => ?_⟩
      have hfalse := hpre d₂ hd₂
      rw [Bool.not_eq_true'] at hfalse
      rw [(containsSub_iff _ _).2 hex] at hfalse
      cases hfalse
    · rintro ⟨as, bs, hdecomp, hex, hpre⟩
      refine ⟨(containsSub_iff _ _).2 hex, as, bs, hdecomp, fun a ha => ?_⟩
      rw [Bool.not_eq_true']
      exact bool_ne_true (fun hc => hpre a ha ((containsSub_iff _ _).1 hc))
  · rw [hdeg, List.find?_eq_none]
    constructor
    · intro hnone d hd hex
      exact hnone d hd ((containsSub_iff _ _).2 hex)
    · intro hall d hd hp
      exact hall d hd ((containsSub_iff _ _).1 hp)

def c10text : Text := tx "education\nstudied database systems at someplace"

def c10res : List EduItem :=
  match extract_education nerNone c10text with
  | .ok r => r
  | .error _ => []

def c10item : EduItem :=
  match c10res with
  | it :: _ => it
  | [] => ⟨none, none, none, none⟩

theorem c10_degree_substring_witness :
    ∃ ck, ck ∈ eduChunks c10text ∧ mkEduItem nerNone ck = .ok c10item
      ∧ (∀ d, c10item.degree = some d ↔
          ∃ ds₁ ds₂, degrees = ds₁ ++ d :: ds₂
            ∧ (∃ l r, lowerT ck = l ++ lowerT d ++ r)
            ∧ ∀ d₂ ∈ ds₁, ¬ ∃ l r, lowerT ck = l ++ lowerT d₂ ++ r)
      ∧ (c10item.degree = none ↔ ∀ d ∈ degrees, ¬ ∃ l r, lowerT ck = l ++ lowerT d ++ r) :=
  c10_degree_substring nerNone c10text c10res c10item rfl (by decide)

/-! ### Claim C7: the year token scan -/

/-- Declarative test for a 19xx or 20xx token with word boundaries at
position p of s: the regex of line 193 viewed positionally. -/
def yearCondB (prev : Option Char) (l : Text) : Bool :=
  match l.take 4 with
  | [a, b, c, d] =>
    boundaryB prev (some a)
      && ((a = '1' && b = '9') || (a = '2' && b = '0'))
      && c.isDigit && d.isDigit
      && boundaryB (some d) ((l.drop 4).head?)
  | _ => false

def yearTokB (s : Text) (p : Nat) : Bool := yearCondB (prevAt s p) (s.drop p)

/-- All positions of s carrying a year token, in document order. -/
def yearPositions (s : Text) : List Nat :=
  (List.range s.length).filter (fun p => yearTokB s p)

theorem yearM_eq : ∀ (prev : Option Char) (l : Text),
    yearM prev l = if yearCondB prev l = true then some (l.drop 4) else none
  | _, [] => rfl
  | _, [_] => rfl
  | _, [_, _] => rfl
  | _, [_, _, _] => rfl
  | _, _ :: _ :: _ :: _ :: _ => rfl

theorem take4_decomp : ∀ {l : Text} {a b c d : Char},
    l.take 4 = [a, b, c, d] → l = a :: b :: c :: d :: l.drop 4 := by
  intro l a b c d h
  cases l with
  | nil => cases h
  | cons x1 t1 =>
    cases t1 with
    | nil => cases h
    | cons x2 t2 =>
      cases t2 with
      | nil => cases h
      | cons x3 t3 =>
        cases t3 with
        | nil => cases h
        | cons x4 t4 =>
          simp only [List.take, List.drop]
          simp only [List.take] at h
          injection h with h1 h
          injection h with h2 h
          injection h with h3 h
          injection h with h4 h
          rw [h1, h2, h3, h4]

theorem isWordChar_of_digit (c : Char) (h : c.isDigit = true) :
    isWordChar c = true := by
  simp [isWordChar, Char.isAlphanum, h]

theorem yearCondB_elim {prev : Option Char} {l : Text}
    (h : yearCondB prev l = true) :
    ∃ a b c d, l = a :: b :: c :: d :: l.drop 4
      ∧ a.isDigit = true ∧ b.isDigit = true ∧ c.isDigit = true ∧ d.isDigit = true := by
  unfold yearCondB at h
  split at h
  · rename_i a b c d heq
    have hl := take4_decomp heq
    simp only [Bool.and_eq_true, Bool.or_eq_true, decide_eq_true_eq] at h
    obtain ⟨⟨⟨⟨-, hor⟩, hc⟩, hd⟩, -⟩ := h
    refine ⟨a, b, c, d, hl, ?_, ?_, hc, hd⟩
    · rcases hor with ⟨ha, -⟩ | ⟨ha, -⟩ <;> rw [ha] <;> rfl
    · rcases hor with ⟨-, hb⟩ | ⟨-, hb⟩ <;> rw [hb] <;> rfl
  · cases h

theorem yearCondB_false_head {prev hd : Char} {rest2 : Text}
    (hw : isWordChar prev = true) (hhd : isWordChar hd = true) :
    yearCondB (some prev) (hd :: rest2) = false := by
  unfold yearCondB
  split
  · rename_i a b c d heq
    rw [List.take_succ_cons] at heq
    injection heq with h1 _
    rw [← h1]
    simp [boundaryB, isWordOpt, hw, hhd]
  · rfl

theorem yearTokB_no_overlap (s : Text) (p : Nat) (h : yearTokB s p = true) :
    yearTokB s (p + 1) = false ∧ yearTokB s (p + 2) = false
      ∧ yearTokB s (p + 3) = false := by
  obtain ⟨a, b, c, d, hl, ha, hb, hc, hd⟩ := yearCondB_elim h
  obtain ⟨rest, hrest⟩ : ∃ rest, (s.drop p).drop 4 = rest := ⟨_, rfl⟩
  rw [hrest] at hl
  have h1 : s.drop (p + 1) = b :: c :: d :: rest := by
    rw [← List.tail_drop, hl]
    rfl
  have h2 : s.drop (p + 2) = c :: d :: rest := by
    rw [show p + 2 = (p + 1) + 1 from rfl, ← List.tail_drop, h1]
    rfl
  have h3 : s.drop (p + 3) = d :: rest := by
    rw [show p + 3 = (p + 2) + 1 from rfl, ← List.tail_drop, h2]
    rfl
  have hp1 : prevAt s (p + 1) = some a := by
    unfold prevAt
    rw [if_neg (by omega : ¬ p + 1 = 0), show p + 1 - 1 = p from rfl, hl]
    rfl
  have hp2 : prevAt s (p + 2) = some b := by
    unfold prevAt
    rw [if_neg (by omega : ¬ p + 2 = 0), show p + 2 - 1 = p + 1 from rfl, h1]
    rfl
  have hp3 : prevAt s (p + 3) = some c := by
    unfold prevAt
    rw [if_neg (by omega : ¬ p + 3 = 0), show p + 3 - 1 = p + 2 from rfl, h2]
    rfl
  refine ⟨?_, ?_, ?_⟩
  · show yearCondB (prevAt s (p + 1)) (s.drop (p + 1)) = false
    rw [h1, hp1]
    exact yearCondB_false_head (isWordChar_of_digit a ha) (isWordChar_of_digit b hb)
  · show yearCondB (prevAt s (p + 2)) (s.drop (p + 2)) = false
    rw [h2, hp2]
    exact yearCondB_false_head (isWordChar_of_digit b hb) (isWordChar_of_digit c hc)
  · show yearCondB (prevAt s (p + 3)) (s.drop (p + 3)) = false
    rw [h3, hp3]
    exact yearCondB_false_head (isWordChar_of_digit c hc) (isWordChar_of_digit d hd)

theorem filter_range'_shift (B : Nat → Bool) :
    ∀ (k q m : Nat), (∀ i, q ≤ i → i < q + k → B i = false) → k ≤ m →
      (List.range' q m).filter B = (List.range' (q + k) (m - k)).filter B := by
  intro k
  induction k with
  | zero =>
    intro q m _ _
    simp
  | succ k ih =>
    intro q m hf hkm
    cases m with
    | zero => exact absurd hkm (by omega)
    | succ m =>
      rw [List.range'_succ, List.filter_cons,
        if_neg (by simp [hf q (Nat.le_refl _) (by omega)])]
      have hrec := ih (q + 1) m (fun i hi1 hi2 => hf i (by omega) (by omega)) (by omega)
      rw [hrec]
      have e1 : q + 1 + k = q + (k + 1) := by omega
      have e2 : m - k = m + 1 - (k + 1) := by omega
      rw [e1, e2]

theorem scanYearsAux_eq (s : Text) :
    ∀ (fuel p : Nat), s.length - p ≤ fuel →
      scanMatchesAux yearM s fuel p
        = ((List.range' p (s.length - p)).filter (fun q => yearTokB s q)).map
            (fun q => (s.drop q).take 4) := by
  intro fuel
  induction fuel with
  | zero =>
    intro p hp
    have h0 : s.length - p = 0 := Nat.le_zero.1 hp
    rw [h0]
    rfl
  | succ fuel ih =>
    intro p hp
    by_cases hple : s.length ≤ p
    · have h0 : s.length - p = 0 := by omega
      rw [h0]
      simp only [scanMatchesAux]
      rw [if_pos hple]
      rfl
    · have hrange : s.length - p = (s.length - (p + 1)) + 1 := by omega
      simp only [scanMatchesAux]
      rw [if_neg hple, hrange, List.range'_succ, List.filter_cons, yearM_eq]
      by_cases hY : yearCondB (prevAt s p) (s.drop p) = true
      · have hYt : yearTokB s p = true := hY
        rw [if_pos hY]
        obtain ⟨a, b, c2, d, hl, ha, hb, hc, hd⟩ := yearCondB_elim hY
        obtain ⟨rest, hrest⟩ : ∃ rest, (s.drop p).drop 4 = rest := ⟨_, rfl⟩
        rw [hrest] at hl
        have hlen4 : 4 ≤ (s.drop p).length := by
          rw [hl]
          simp only [List.length_cons]
          omega
        have hlen : (s.drop p).length - ((s.drop p).drop 4).length = 4 := by
          rw [hrest, hl]
          simp only [List.length_cons]
          omega
        have hlenS : 4 ≤ s.length - p := by
          have hld : (s.drop p).length = s.length - p := List.length_drop p s
          rw [hld] at hlen4
          exact hlen4
        simp only [hlen, hYt, if_pos]
        rw [List.map_cons]
        have hmax : max (4 : Nat) 1 = 4 := rfl
        rw [hmax]
        have hno := yearTokB_no_overlap s p hYt
        have hshift := filter_range'_shift (fun q => yearTokB s q) 3 (p + 1)
          (s.length - (p + 1))
          (fun i hi1 hi2 => by
            have : i = p + 1 ∨ i = p + 2 ∨ i = p + 3 := by omega
            rcases this with rfl | rfl | rfl
            · exact hno.1
            · exact hno.2.1
            · exact hno.2.2)
          (by omega)
        rw [hshift]
        have e1 : p + 1 + 3 = p + 4 := by omega
        have e2 : s.length - (p + 1) - 3 = s.length - (p + 4) := by omega
        rw [e1, e2]
        exact congrArg (List.cons _) (ih (p + 4) (by omega))
      · have hYf : yearTokB s p = false := bool_ne_true hY
        rw [if_neg hY]
        rw [if_neg (by simp [hYf] : ¬ ((fun q => yearTokB s q) p = true))]
        exact ih (p + 1) (by omega)

theorem scanMatches_year_eq (s : Text) :
    scanMatches yearM s = (yearPositions s).map (fun q => (s.drop q).take 4) := by
  unfold scanMatches yearPositions
  rw [List.range_eq_range']
  have h := scanYearsAux_eq s (s.length + 1) 0 (by omega)
  rw [Nat.sub_zero] at h
  exact h

/-- C7: the year field of an education entry equals the last year token
(a 19xx or 20xx 4-digit token between word boundaries) occurring anywhere
in the entry text, and is unset exactly when no such token occurs. -/
theorem c7_year_last (ner : NER) (text : Text) (res : List EduItem) (it : EduItem)
    (h : extract_education ner text = .ok res) (hit : it ∈ res) :
    ∃ ck, ck ∈ eduChunks text ∧ mkEduItem ner ck = .ok it
      ∧ it.year = ((yearPositions ck).map (fun q => (ck.drop q).take 4)).getLast?
      ∧ (it.year = none ↔ yearPositions ck = []) := by
  obtain ⟨ck, hcke, hcko⟩ := edu_item_from_chunk ner text res it h hit
  obtain ⟨-, hyear⟩ := mkEduItem_ok ner ck it hcko
  rw [scanMatches_year_eq] at hyear
  refine ⟨ck, hcke, hcko, hyear, ?_⟩
  rw [hyear, List.getLast?_eq_none_iff, List.map_eq_nil_iff]

def c7text : Text := tx "education\nbachelor of arts 1998 to 2002 at a place"

def c7res : List EduItem :=
  match extract_education nerNone c7text with
  | .ok r => r
  | .error _ => []

def c7item : EduItem :=
  match c7res with
  | it :: _ => it
  | [] => ⟨none, none, none, none⟩

theorem c7_year_last_witness :
    ∃ ck, ck ∈ eduChunks c7text ∧ mkEduItem nerNone ck = .ok c7item
      ∧ c7item.year = ((yearPositions ck).map (fun q => (ck.drop q).take 4)).getLast?
      ∧ (c7item.year = none ↔ yearPositions ck = []) :=
  c7_year_last nerNone c7text c7res c7item rfl (by decide)

/-! ### Claim C8 -/

theorem except_ok_inj {α : Type} {a b : α}
    (h : (Except.ok a : Except Text α) = .ok b) : a = b := by
  injection h

theorem contact_ok_phone (ner : NER) (text : Text) (c : Contact)
    (h : extract_contact_info ner text = .ok c) : c.phone = phoneOf text := by
  unfold extract_contact_info at h
  cases hne : ner (text.take 500) with
  | error e =>
    rw [hne] at h
    have h2 : (Except.error e : Except Text Contact) = .ok c := h
    exact Except.noConfusion h2
  | ok ents =>
    rw [hne] at h
    have h2 := except_ok_inj h
    rw [← h2]

/-- C8: the phone field follows the fixed pattern order: the first match
of the first pattern when it matches anywhere, else the first match of the
second pattern, else the result of the third; a later pattern is never
consulted once an earlier one matches. -/
theorem c8_phone_pattern_order (ner : NER) (text : Text) (c : Contact)
    (h : extract_contact_info ner text = .ok c) :
    (∀ m, reSearch phoneM1 text = some m → c.phone = some m)
    ∧ (reSearch phoneM1 text = none →
        ∀ m, reSearch phoneM2 text = some m → c.phone = some m)
    ∧ (reSearch phoneM1 text = none → reSearch phoneM2 text = none →
        c.phone = reSearch phoneM3 text) := by
  have hp : c.phone = phoneOf text := contact_ok_phone ner text c h
  unfold phoneOf phonePatterns firstPatMatch at hp
  refine ⟨?_, ?_, ?_⟩
  · intro m h1
    rw [hp, h1]
  · intro h1 m h2
    rw [hp, h1]
    dsimp only
    unfold firstPatMatch
    rw [h2]
  · intro h1 h2
    rw [hp, h1]
    dsimp only
    unfold firstPatMatch
    rw [h2]
    dsimp only
    unfold firstPatMatch
    cases hr : reSearch phoneM3 text with
    | none => rfl
    | some m => rfl

def c8text : Text := tx "call 555-123-4567 now"

def c8c : Contact :=
  match extract_contact_info nerNone c8text with
  | .ok cc => cc
  | .error _ => ⟨none, none, none, none, none⟩

theorem c8_phone_pattern_order_witness :
    (∀ m, reSearch phoneM1 c8text = some m → c8c.phone = some m)
    ∧ (reSearch phoneM1 c8text = none →
        ∀ m, reSearch phoneM2 c8text = some m → c8c.phone = some m)
    ∧ (reSearch phoneM1 c8text = none → reSearch phoneM2 c8text = none →
        c8c.phone = reSearch phoneM3 c8text) :=
  c8_phone_pattern_order nerNone c8text c8c rfl

/-! ### Claim C5: section extraction -/

/-- Whole-word occurrence of kw at position p of s: kw is present at p and
a word boundary holds on each side. -/
def WordOccurAt (s kw : Text) (p : Nat) : Prop :=
  (∃ rest, s.drop p = kw ++ rest)
  ∧ boundaryB (prevAt s p) ((s.drop p).head?) = true
  ∧ boundaryB (lastC (prevAt s p) kw) ((s.drop (p + kw.length)).head?) = true

theorem wordPosB_iff (s kw : Text) (p : Nat) :
    wordPosB s kw p = true ↔ WordOccurAt s kw p := by
  unfold wordPosB wordMatchAtList WordOccurAt
  simp only [Bool.and_eq_true, startsWith_iff]
  constructor
  · rintro ⟨⟨hb1, hsw⟩, hb2⟩
    refine ⟨hsw, hb1, ?_⟩
    rw [← List.drop_drop]
    exact hb2
  · rintro ⟨hsw, hb1, hb2⟩
    refine ⟨⟨hb1, hsw⟩, ?_⟩
    rw [List.drop_drop]
    exact hb2

theorem wordPosB_big (s kw : Text) (p : Nat) (h : s.length + 1 ≤ p) :
    wordPosB s kw p = false := by
  unfold wordPosB wordMatchAtList
  have h1 : s.drop p = [] := List.drop_eq_nil_of_le (by omega)
  have h2 : prevAt s p = none := by
    unfold prevAt
    rw [if_neg (by omega : ¬ p = 0),
      List.drop_eq_nil_of_le (by omega : s.length ≤ p - 1)]
    rfl
  rw [h1, h2]
  rfl

theorem sectionStart_eq_none (s : Text) :
    ∀ kws, sectionStart kws s = none ↔ ∀ kw ∈ kws, ∀ p, wordPosB s kw p = false := by
  intro kws
  induction kws with
  | nil => simp [sectionStart]
  | cons kw rest ih =>
    simp only [sectionStart]
    cases hs : searchLeast (fun p => wordPosB s kw p) 0 (s.length + 1) with
    | some p =>
      dsimp only
      obtain ⟨-, -, hBp, -⟩ := (searchLeast_eq_some _ _ _ _).1 hs
      constructor
      · intro h
        cases h
      · intro h
        rw [h kw (List.mem_cons_self _ _) p] at hBp
        cases hBp
    | none =>
      dsimp only
      have hnone := (searchLeast_eq_none _ _ _).1 hs
      have hkw : ∀ p, wordPosB s kw p = false := by
        intro p
        by_cases hp : p < s.length + 1
        · exact hnone p (by omega) (by omega)
        · exact wordPosB_big s kw p (by omega)
      rw [ih]
      constructor
      · intro h kw2 hkw2 p
        rcases List.mem_cons.1 hkw2 with rfl | h2
        · exact hkw p
        · exact h kw2 h2 p
      · intro h kw2 hkw2 p
        exact h kw2 (List.mem_cons_of_mem _ hkw2) p

theorem sectionStart_eq_some (s : Text) :
    ∀ kws p, sectionStart kws s = some p ↔
      ∃ pre kw post, kws = pre ++ kw :: post
        ∧ (∀ kw2 ∈ pre, ∀ q, wordPosB s kw2 q = false)
        ∧ wordPosB s kw p = true
        ∧ ∀ q < p, wordPosB s kw q = false := by
  intro kws
  induction kws with
  | nil =>
    intro p
    constructor
    · intro h
      cases h
    · rintro ⟨pre, kw, post, hdec, -⟩
      have h2 := (List.append_eq_nil.1 hdec.symm).2
      exact absurd h2 (List.cons_ne_nil _ _)
  | cons kw0 rest ih =>
    intro p
    simp only [sectionStart]
    cases hs : searchLeast (fun q => wordPosB s kw0 q) 0 (s.length + 1) with
    | some p0 =>
      dsimp only
      obtain ⟨-, -, hB0, hmin0⟩ := (searchLeast_eq_some _ _ _ _).1 hs
      constructor
      · intro h
        injection h with h
        subst h
        exact ⟨[], kw0, rest, rfl, (by intro kw2 h2 q; cases h2), hB0,
          fun q hq => hmin0 q (by omega) hq⟩
      · rintro ⟨pre, kw, post, hdec, hpre, hB, hmin⟩
        cases pre with
        | nil =>
          injection hdec with hkw hpost
          subst hkw
          have heq : p0 = p := by
            rcases Nat.lt_trichotomy p0 p with h1 | h1 | h1
            · have hf := hmin p0 h1
              rw [hf] at hB0
              cases hB0
            · exact h1
            · have hf := hmin0 p (by omega) h1
              rw [hf] at hB
              cases hB
          rw [heq]
        | cons a pre2 =>
          injection hdec with ha hrest2
          subst ha
          have hf := hpre kw0 (List.mem_cons_self _ _) p0
          rw [hf] at hB0
          cases hB0
    | none =>
      dsimp only
      have hnone := (searchLeast_eq_none _ _ _).1 hs
      have hkw0 : ∀ q, wordPosB s kw0 q = false := by
        intro q
        by_cases hq : q < s.length + 1
        · exact hnone q (by omega) (by omega)
        · exact wordPosB_big s kw0 q (by omega)
      rw [ih p]
      constructor
      · rintro ⟨pre, kw, post, hdec, hpre, hB, hmin⟩
        refine ⟨kw0 :: pre, kw, post, by rw [hdec]; rfl, ?_, hB, hmin⟩
        intro kw2 h2 q
        rcases List.mem_cons.1 h2 with rfl | h3
        · exact hkw0 q
        · exact hpre kw2 h3 q
      · rintro ⟨pre, kw, post, hdec, hpre, hB, hmin⟩
        cases pre with
        | nil =>
          injection hdec with hkw hpost
          subst hkw
          have hf := hkw0 p
          rw [hf] at hB
          cases hB
        | cons a pre2 =>
          injection hdec with ha hrest2
          refine ⟨pre2, kw, post, hrest2, ?_, hB, hmin⟩
          intro kw2 h2 q
          exact hpre kw2 (List.mem_cons_of_mem _ h2) q

theorem isWordChar_space {c : Char} (h : isPySpace c = true) :
    isWordChar c = false := by
  unfold isPySpace at h
  simp only [Bool.or_eq_true, decide_eq_true_eq] at h
  rcases h with ((((h | h) | h) | h) | h) | h <;> subst h <;> rfl

theorem lastC_nil (prev : Option Char) : lastC prev [] = prev := rfl

theorem lastC_cons (prev : Option Char) (c : Char) (xs : Text) :
    lastC prev (c :: xs) = lastC (some c) xs := by
  cases xs with
  | nil => rfl
  | cons y ys =>
    unfold lastC
    rw [List.getLast?_cons_cons]
    cases hg : (y :: ys).getLast? with
    | some z => rfl
    | none =>
      rw [List.getLast?_eq_none_iff] at hg
      cases hg

theorem wsThenWord_iff (hdr : Text) :
    ∀ (l : Text) (prev : Option Char), isWordOpt prev = false →
      (wsThenWord hdr prev l = true ↔
        ∃ k, k ≤ l.length ∧ ((l.take k).all isPySpace) = true
          ∧ wordMatchAtList (lastC prev (l.take k)) hdr (l.drop k) = true) := by
  intro l
  induction l with
  | nil =>
    intro prev hprev
    simp only [wsThenWord]
    constructor
    · intro h
      exact ⟨0, by omega, rfl, h⟩
    · rintro ⟨k, hk, -, hm⟩
      have hk0 : k = 0 := by
        simp only [List.length_nil] at hk
        omega
      subst hk0
      exact hm
  | cons c rest ih =>
    intro prev hprev
    simp only [wsThenWord]
    by_cases hc : isPySpace c = true
    · rw [if_pos hc]
      have hcw : isWordChar c = false := isWordChar_space hc
      rw [ih (some c) (by simp [isWordOpt, hcw])]
      constructor
      · rintro ⟨k, hk, hall, hm⟩
        refine ⟨k + 1, by simp only [List.length_cons]; omega, ?_, ?_⟩
        · rw [List.take_succ_cons]
          simp only [List.all_cons, Bool.and_eq_true]
          exact ⟨hc, hall⟩
        · rw [List.take_succ_cons, lastC_cons]
          exact hm
      · rintro ⟨k, hk, hall, hm⟩
        cases k with
        | zero =>
          exfalso
          simp only [List.take_zero, lastC_nil, List.drop_zero] at hm
          unfold wordMatchAtList at hm
          simp only [Bool.and_eq_true] at hm
          obtain ⟨⟨hb1, -⟩, -⟩ := hm
          have hbf : boundaryB prev ((c :: rest).head?) = false := by
            unfold boundaryB
            rw [hprev]
            simp [isWordOpt, hcw]
          rw [hbf] at hb1
          cases hb1
        | succ k2 =>
          refine ⟨k2, by simp only [List.length_cons] at hk; omega, ?_, ?_⟩
          · rw [List.take_succ_cons] at hall
            simp only [List.all_cons, Bool.and_eq_true] at hall
            exact hall.2
          · rw [List.take_succ_cons, lastC_cons] at hm
            exact hm
    · rw [if_neg hc]
      constructor
      · intro hm
        exact ⟨0, by omega, rfl, hm⟩
      · rintro ⟨k, hk, hall, hm⟩
        cases k with
        | zero => exact hm
        | succ k2 =>
          exfalso
          rw [List.take_succ_cons] at hall
          simp only [List.all_cons, Bool.and_eq_true] at hall
          exact hc hall.1

/-- A header line at offset j of the slice t: a newline, then k whitespace
characters, then a whole-word occurrence of hdr. -/
def HeaderLineAt (t hdr : Text) (j : Nat) : Prop :=
  ∃ k, k ≤ (t.drop (j + 1)).length
    ∧ (t.drop j).head? = some '\n'
    ∧ ((t.drop (j + 1)).take k).all isPySpace = true
    ∧ WordOccurAt t hdr (j + 1 + k)

theorem drop_succ_of_head (t : Text) (j : Nat) {c : Char} {rest : Text}
    (h : t.drop j = c :: rest) : t.drop (j + 1) = rest := by
  rw [← List.tail_drop, h]
  rfl

theorem prevAt_eq_lastC (t : Text) (j k : Nat) {rest : Text}
    (hd : t.drop j = '\n' :: rest) (hk : k ≤ rest.length) :
    prevAt t (j + 1 + k) = lastC (some '\n') (rest.take k) := by
  have hdrop1 : t.drop (j + 1) = rest := drop_succ_of_head t j hd
  cases k with
  | zero =>
    unfold prevAt
    rw [if_neg (by omega : ¬ j + 1 + 0 = 0),
      show j + 1 + 0 - 1 = j from rfl, hd]
    rfl
  | succ k2 =>
    unfold prevAt
    rw [if_neg (by omega : ¬ j + 1 + (k2 + 1) = 0),
      show j + 1 + (k2 + 1) - 1 = j + 1 + k2 from by omega]
    have hdropk : t.drop (j + 1 + k2) = rest.drop k2 := by
      rw [← List.drop_drop, hdrop1]
    rw [hdropk]
    have hlast : (rest.take (k2 + 1)).getLast? = rest[k2]? := by
      rw [List.getLast?_eq_getElem?, List.length_take,
        Nat.min_eq_left (by omega : k2 + 1 ≤ rest.length),
        show k2 + 1 - 1 = k2 from rfl, List.getElem?_take,
        if_pos (by omega : k2 < k2 + 1)]
    unfold lastC
    rw [hlast]
    cases hx : rest[k2]? with
    | none =>
      exfalso
      rw [List.getElem?_eq_none_iff] at hx
      omega
    | some x =>
      rw [List.head?_eq_getElem?, List.getElem?_drop,
        show k2 + 0 = k2 from rfl, hx]

theorem nlHdrB_iff (t hdr : Text) (j : Nat) :
    nlHdrB t hdr j = true ↔ HeaderLineAt t hdr j := by
  unfold nlHdrB nlHdrAtB HeaderLineAt
  cases hd : t.drop j with
  | nil =>
    constructor
    · intro h
      cases h
    · rintro ⟨k, -, hh, -⟩
      cases hh
  | cons c rest =>
    have hdrop1 : t.drop (j + 1) = rest := drop_succ_of_head t j hd
    by_cases hc : c = '\n'
    · subst hc
      have hwd : isWordOpt (some '\n') = false := rfl
      simp only [decide_True, Bool.true_and]
      rw [wsThenWord_iff hdr rest (some '\n') hwd]
      constructor
      · rintro ⟨k, hk, hall, hm⟩
        refine ⟨k, by rw [hdrop1]; exact hk, rfl, ?_, ?_⟩
        · rw [hdrop1]
          exact hall
        · rw [← wordPosB_iff]
          show wordMatchAtList (prevAt t (j + 1 + k)) hdr (t.drop (j + 1 + k)) = true
          have ht : t.drop (j + 1 + k) = rest.drop k := by
            rw [← List.drop_drop, hdrop1]
          rw [prevAt_eq_lastC t j k hd hk, ht]
          exact hm
      · rintro ⟨k, hk, -, hall, ho⟩
        rw [hdrop1] at hk hall
        refine ⟨k, hk, hall, ?_⟩
        rw [← wordPosB_iff] at ho
        have ht : t.drop (j + 1 + k) = rest.drop k := by
          rw [← List.drop_drop, hdrop1]
        have ho2 : wordMatchAtList (prevAt t (j + 1 + k)) hdr (t.drop (j + 1 + k)) = true := ho
        rw [prevAt_eq_lastC t j k hd hk, ht] at ho2
        exact ho2
    · constructor
      · intro h
        simp only [Bool.and_eq_true, decide_eq_true_eq] at h
        exact absurd h.1 hc
      · rintro ⟨k, -, hh, -⟩
        injection hh with hh
        exact absurd hh hc

theorem nlHdrB_big (t hdr : Text) (j : Nat) (h : t.length ≤ j) :
    nlHdrB t hdr j = false := by
  unfold nlHdrB
  rw [List.drop_eq_nil_of_le h]
  rfl

theorem foldl_end_char (t : Text) (start : Nat) :
    ∀ (hs : List Text) (acc : Nat),
      (hs.foldl (sectionEndStep t start) acc) ≤ acc
      ∧ (∀ hdr ∈ hs, ∀ j, nlHdrB t hdr j = true →
          (hs.foldl (sectionEndStep t start) acc) ≤ start + 50 + j)
      ∧ ((hs.foldl (sectionEndStep t start) acc) = acc
          ∨ ∃ hdr ∈ hs, ∃ j, nlHdrB t hdr j = true
              ∧ (hs.foldl (sectionEndStep t start) acc) = start + 50 + j) := by
  intro hs
  induction hs with
  | nil =>
    intro acc
    refine ⟨Nat.le_refl _, ?_, .inl rfl⟩
    intro hdr h
    cases h
  | cons hdr hs ih =>
    intro acc
    simp only [List.foldl_cons]
    cases hh : hdrSearch t hdr with
    | none =>
      have hacc : sectionEndStep t start acc hdr = acc := by
        unfold sectionEndStep
        rw [hh]
      have hnomatch : ∀ j, nlHdrB t hdr j = false := by
        have hn := (searchLeast_eq_none _ _ _).1 hh
        intro j
        by_cases hj : j < t.length + 1
        · exact hn j (by omega) (by omega)
        · exact nlHdrB_big t hdr j (by omega)
      rw [hacc]
      obtain ⟨ih1, ih2, ih3⟩ := ih acc
      refine ⟨ih1, ?_, ?_⟩
      · intro hdr2 h2 j hB
        rcases List.mem_cons.1 h2 with rfl | h3
        · rw [hnomatch j] at hB
          cases hB
        · exact ih2 hdr2 h3 j hB
      · rcases ih3 with h3 | ⟨hdr2, h2, j, hB, he⟩
        · exact .inl h3
        · exact .inr ⟨hdr2, List.mem_cons_of_mem _ h2, j, hB, he⟩
    | some j0 =>
      obtain ⟨-, -, hBj0, hminj0⟩ := (searchLeast_eq_some _ _ _ _).1 hh
      by_cases hlt : start + 50 + j0 < acc
      · have hacc : sectionEndStep t start acc hdr = start + 50 + j0 := by
          unfold sectionEndStep
          rw [hh]
          dsimp only
          rw [if_pos hlt]
        rw [hacc]
        obtain ⟨ih1, ih2, ih3⟩ := ih (start + 50 + j0)
        refine ⟨by omega, ?_, ?_⟩
        · intro hdr2 h2 j hB
          rcases List.mem_cons.1 h2 with rfl | h3
          · have hj0le : j0 ≤ j := by
              by_contra hcon
              rw [hminj0 j (by omega) (by omega)] at hB
              cases hB
            omega
          · exact ih2 hdr2 h3 j hB
        · rcases ih3 with h3 | ⟨hdr2, h2, j, hB, he⟩
          · exact .inr ⟨hdr, List.mem_cons_self _ _, j0, hBj0, h3⟩
          · exact .inr ⟨hdr2, List.mem_cons_of_mem _ h2, j, hB, he⟩
      · have hacc : sectionEndStep t start acc hdr = acc := by
          unfold sectionEndStep
          rw [hh]
          dsimp only
          rw [if_neg hlt]
        rw [hacc]
        obtain ⟨ih1, ih2, ih3⟩ := ih acc
        refine ⟨ih1, ?_, ?_⟩
        · intro hdr2 h2 j hB
          rcases List.mem_cons.1 h2 with rfl | h3
          · have hj0le : j0 ≤ j := by
              by_contra hcon
              rw [hminj0 j (by omega) (by omega)] at hB
              cases hB
            omega
          · exact ih2 hdr2 h3 j hB
        · rcases ih3 with h3 | ⟨hdr2, h2, j, hB, he⟩
          · exact .inl h3
          · exact .inr ⟨hdr2, List.mem_cons_of_mem _ h2, j, hB, he⟩

/-- Declarative description of extract_section, in the corrected form: the
start is the leftmost whole-word match of the first synonym in list order
that matches at all; the end is the minimum, over the fixed header list,
of the newline position of the first header-line match in the text sliced
50 characters past the start, defaulting to the document length; the
returned span is the slice from start to end. -/
def SectionSpec (text : Text) (kws : List Text) : Option Text → Prop
  | none => ∀ kw ∈ kws, ∀ p, ¬ WordOccurAt (lowerT text) kw p
  | some sub =>
    ∃ pre kw post start e,
      kws = pre ++ kw :: post
      ∧ (∀ kw2 ∈ pre, ∀ q, ¬ WordOccurAt (lowerT text) kw2 q)
      ∧ WordOccurAt (lowerT text) kw start
      ∧ (∀ q < start, ¬ WordOccurAt (lowerT text) kw q)
      ∧ e ≤ text.length
      ∧ (∀ hdr ∈ sectionHeaders, ∀ j,
          HeaderLineAt ((lowerT text).drop (start + 50)) hdr j →
            e ≤ start + 50 + j)
      ∧ (e = text.length
          ∨ ∃ hdr ∈ sectionHeaders, ∃ j,
              HeaderLineAt ((lowerT text).drop (start + 50)) hdr j
                ∧ e = start + 50 + j)
      ∧ sub = (text.drop start).take (e - start)

/-- C5 amended: extract_section satisfies the corrected declarative
description: synonym list order decides the start keyword, the leftmost
whole-word match decides the start position, and the end is the minimal
newline position of a header standing at the beginning of a line after
the 50 character skip, or the document length. -/
theorem c5_section_spec (text : Text) (kws : List Text) :
    SectionSpec text kws (extract_section text kws) := by
  unfold extract_section
  show SectionSpec text kws
    (match sectionStart kws (lowerT text) with
      | none => none
      | some start =>
        some ((text.drop start).take (sectionEnd (lowerT text) text.length start - start)))
  cases hs : sectionStart kws (lowerT text) with
  | none =>
    show SectionSpec text kws none
    rw [sectionStart_eq_none] at hs
    intro kw hkw p hocc
    have hB := (wordPosB_iff (lowerT text) kw p).2 hocc
    rw [hs kw hkw p] at hB
    cases hB
  | some start =>
    show SectionSpec text kws
      (some ((text.drop start).take (sectionEnd (lowerT text) text.length start - start)))
    rw [sectionStart_eq_some] at hs
    obtain ⟨pre, kw, post, hdec, hpre, hB, hmin⟩ := hs
    obtain ⟨he1, he2, he3⟩ :=
      foldl_end_char ((lowerT text).drop (start + 50)) start sectionHeaders text.length
    refine ⟨pre, kw, post, start, sectionEnd (lowerT text) text.length start,
      hdec, ?_, ?_, ?_, he1, ?_, ?_, rfl⟩
    · intro kw2 h2 q hocc
      have hB2 := (wordPosB_iff _ _ _).2 hocc
      rw [hpre kw2 h2 q] at hB2
      cases hB2
    · exact (wordPosB_iff _ _ _).1 hB
    · intro q hq hocc
      have hB2 := (wordPosB_iff _ _ _).2 hocc
      rw [hmin q hq] at hB2
      cases hB2
    · intro hdr hh j hHL
      exact he2 hdr hh j ((nlHdrB_iff _ _ _).2 hHL)
    · rcases he3 with h3 | ⟨hdr, hh, j, hB2, he⟩
      · exact .inl h3
      · exact .inr ⟨hdr, hh, j, (nlHdrB_iff _ _ _).1 hB2, he⟩

/-- Least whole-word occurrence of hdr strictly after position lo. -/
def wordOccSearchAfter (s hdr : Text) (lo : Nat) : Option Nat :=
  searchLeast (fun p => wordPosB s hdr p && decide (lo < p)) 0 (s.length + 1)

/-- The section extractor exactly as claim C5 words it: the end is the
minimum over headers of the next whole-word occurrence strictly after
start plus 50 characters, with no newline requirement, and the end is the
position of the header occurrence itself. -/
def extract_section_claimed (text : Text) (kws : List Text) : Option Text :=
  let tl := lowerT text
  match sectionStart kws tl with
  | none => none
  | some start =>
    let e := sectionHeaders.foldl (fun acc hdr =>
      match wordOccSearchAfter tl hdr (start + 50) with
      | some p => if p < acc then p else acc
      | none => acc) text.length
    some ((text.drop start).take (e - start))

def c5doc : Text :=
  tx "experience aaaaaaaaaaaaaaaaaaaaaaaaaaaaaaaaaaaaaaaaaaaaaaaa education end"

def c5kws : List Text := [tx "experience"]

/-- C5 counterexample: on a document whose education header sits in the
middle of a line after the 50 character skip, the code keeps the whole
document while the claimed rule would cut at the header occurrence, so
the claim as stated is false of the code. -/
theorem c5_section_counterexample :
    extract_section c5doc c5kws = some c5doc
    ∧ extract_section_claimed c5doc c5kws = some (c5doc.take 60)
    ∧ extract_section c5doc c5kws ≠ extract_section_claimed c5doc c5kws :=
  ⟨by decide, by decide, by decide⟩

end ResumeCraft
